import Mathlib

/-!
# Verification of the dubdub subtitle-alignment core

Shallow embedding of `src/backend/rust-service/src/tokenizer.rs` and
`src/backend/rust-service/src/aligner.rs`.

Modelling conventions:

* A Unicode scalar value is a `Chr`: its UTF-8 byte encoding together with
  the three character-class facts the code consults (`\p{L}\p{M}` membership,
  the apostrophe/hyphen joiner class, and the `White_Space` property used by
  `str::trim`).  The classes are data, so the development holds for the real
  Unicode tables.
* A text is given as its grapheme-cluster decomposition
  `List (List Chr)` (what `text.graphemes(true)` yields); its scalar sequence
  is the flattening and its byte sequence the flattening of the encodings.
* `f64` values are modelled as exact rationals `ℚ`; the aligner uses only
  `+ - * /` and comparisons, all of which ℚ supports.
* The regex `[\p{L}\p{M}]+(?:['\-][\p{L}\p{M}]+)*` together with
  `find_iter`'s leftmost, non-overlapping, greedy matching is embedded as the
  maximal-munch scanner `scanStd`: a match starts at the first letter/mark
  character, takes the maximal letter/mark run, then repeatedly consumes a
  joiner followed by a further non-empty maximal letter/mark run; scanning
  resumes right after each match, and non-matching characters advance the
  byte cursor without producing tokens.
-/

namespace DubDub

/-- A Unicode scalar value carrying its UTF-8 encoding and the character
classes consulted by the tokenizer. -/
structure Chr where
  bytes : List Nat
  isLM : Bool
  isJoiner : Bool
  isWs : Bool
deriving DecidableEq, Repr

/-- Byte length of one scalar (`char::len_utf8`). -/
def chrLen (c : Chr) : Nat := c.bytes.length

/-- UTF-8 bytes of a scalar sequence (a Rust `String`/`&str`). -/
def strBytes (cs : List Chr) : List Nat := (cs.map Chr.bytes).flatten

/-- Byte length of a scalar sequence (`str::len`). -/
def strLen (cs : List Chr) : Nat := (strBytes cs).length

/-- The byte slice `text[s..e]` of Rust. -/
def byteSlice (bs : List Nat) (s e : Nat) : List Nat := (bs.take e).drop s

/-- Per-scalar lowercasing, modelling `str::to_lowercase` on the ASCII
language tags the code matches against. -/
def lowerStr (s : String) : String := ⟨s.data.map Char.toLower⟩

/-- `is_cjk_language` from tokenizer.rs: fixed list of CJK language tags. -/
def is_cjk_language (lang : String) : Bool :=
  match lang with
  | "chinese" | "zh" | "zh-hans" | "zh-hant"
  | "japanese" | "ja"
  | "korean" | "ko" => true
  | _ => false

/-- `TokenPosition` from models.rs: byte offsets into the original text. -/
structure TokenPosition where
  start : Nat
  «end» : Nat
deriving DecidableEq, Repr

/-- `TokenizeResponse` from models.rs (text kept in its grapheme form). -/
structure TokenizeResponse where
  text : List (List Chr)
  language : String
  tokens : List (List Chr)
  positions : List TokenPosition
deriving DecidableEq, Repr

/-- The loop of `tokenize_cjk`: walk the grapheme clusters keeping a byte
cursor; a cluster whose trimmed content is empty (all `White_Space`) is
skipped but still advances the cursor, every other cluster becomes one
token at `[current_pos, current_pos + len)`. -/
def tokenize_cjk_go : List (List Chr) → Nat → List (List Chr) × List TokenPosition
  | [], _ => ([], [])
  | g :: rest, pos =>
    if g.all Chr.isWs then
      tokenize_cjk_go rest (pos + strLen g)
    else
      let res := tokenize_cjk_go rest (pos + strLen g)
      (g :: res.1, { start := pos, «end» := pos + strLen g } :: res.2)

/-- `tokenize_cjk` from tokenizer.rs. -/
def tokenize_cjk (gs : List (List Chr)) : List (List Chr) × List TokenPosition :=
  tokenize_cjk_go gs 0

/-- Maximal run of letter/mark scalars (the greedy `[\p{L}\p{M}]+`). -/
def lmRun (l : List Chr) : List Chr := l.takeWhile Chr.isLM

/-- What remains after the maximal letter/mark run. -/
def lmRem (l : List Chr) : List Chr := l.drop (lmRun l).length

/-- The greedy `(?:['\-][\p{L}\p{M}]+)*` continuation of a match: as long
as the next scalar is a joiner followed by at least one letter/mark scalar,
consume the joiner and the following maximal letter/mark run. -/
def wordTail : List Chr → List Chr
  | [] => []
  | [_] => []
  | j :: c :: rest =>
    if j.isJoiner && c.isLM then
      j :: c :: (lmRun rest ++ wordTail (lmRem rest))
    else
      []
termination_by l => l.length
decreasing_by
  simp [lmRem, List.length_drop]
  omega

/-- The `find_iter` loop of `tokenize_standard`: leftmost matches of the
word regex, each recorded with its byte offsets; non-matching scalars
advance the byte cursor silently. -/
def scanStd : List Chr → Nat → List (List Chr) × List TokenPosition
  | [], _ => ([], [])
  | c :: rest, pos =>
    if c.isLM then
      let word := c :: (lmRun rest ++ wordTail (lmRem rest))
      let rem2 := (lmRem rest).drop (wordTail (lmRem rest)).length
      let res := scanStd rem2 (pos + strLen word)
      (word :: res.1, { start := pos, «end» := pos + strLen word } :: res.2)
    else
      scanStd rest (pos + chrLen c)
termination_by l _ => l.length
decreasing_by
  · simp [lmRem, List.length_drop]
    omega
  · simp

/-- `tokenize_standard` from tokenizer.rs: scan from byte offset 0. -/
def tokenize_standard (cs : List Chr) : List (List Chr) × List TokenPosition :=
  scanStd cs 0

/-- The language dispatch of `tokenize_text`: CJK languages take the
grapheme path, everything else the regex path over the scalar sequence. -/
def tokenizePair (text : List (List Chr)) (language : String) :
    List (List Chr) × List TokenPosition :=
  if is_cjk_language (lowerStr language) then tokenize_cjk text
  else tokenize_standard text.flatten

/-- `tokenize_text` from tokenizer.rs: always returns `Ok`. -/
def tokenize_text (text : List (List Chr)) (language : String) :
    Except String TokenizeResponse :=
  .ok { text := text, language := language,
        tokens := (tokenizePair text language).1,
        positions := (tokenizePair text language).2 }

/-- `WordTiming` from models.rs. -/
structure WordTiming where
  word : List Chr
  start : ℚ
  «end» : ℚ
  confidence : ℚ
  char_start : Nat
  char_end : Nat
deriving DecidableEq, Repr

/-- `AlignmentMethod` from models.rs. -/
inductive AlignmentMethod where
  | linear
  | weighted
  | forcedAligner
deriving DecidableEq, Repr

/-- `AlignmentRequest` from models.rs (text in its grapheme form). -/
structure AlignmentRequest where
  text : List (List Chr)
  language : String
  subtitle_start : ℚ
  subtitle_end : ℚ
  audio_url : Option String
deriving DecidableEq, Repr

/-- `AlignmentResponse` from models.rs. -/
structure AlignmentResponse where
  text : List (List Chr)
  language : String
  duration : ℚ
  timings : List WordTiming
  method : AlignmentMethod
deriving DecidableEq, Repr

/-- The timing loop of `align_weighted`: each word's duration is
`total_duration * (word_chars / total_chars)`, spans start at the running
cursor and the cursor advances by the span's duration. -/
def weightedTimings : List (List Chr × TokenPosition) → ℚ → ℚ → ℚ → List WordTiming
  | [], _, _, _ => []
  | (word, p) :: rest, total_duration, total_chars, current_time =>
    { word := word, start := current_time,
      «end» := current_time + total_duration * ((word.length : ℚ) / total_chars),
      confidence := 3 / 4,
      char_start := p.start, char_end := p.«end» } ::
    weightedTimings rest total_duration total_chars
      (current_time + total_duration * ((word.length : ℚ) / total_chars))

/-- `align_weighted` from aligner.rs. -/
def align_weighted (req : AlignmentRequest) : Except String AlignmentResponse :=
  match tokenize_text req.text req.language with
  | .error e => .error e
  | .ok tokenized =>
    if tokenized.tokens.isEmpty then
      .error "No words found to align"
    else if req.subtitle_end - req.subtitle_start ≤ 0 then
      .error "Invalid subtitle timing: end must be after start"
    else if (tokenized.tokens.map List.length).sum = 0 then
      .error "No characters found"
    else
      .ok { text := req.text, language := req.language,
            duration := req.subtitle_end - req.subtitle_start,
            timings := weightedTimings (tokenized.tokens.zip tokenized.positions)
              (req.subtitle_end - req.subtitle_start)
              (((tokenized.tokens.map List.length).sum : Nat) : ℚ)
              req.subtitle_start,
            method := .weighted }

/-- The timing loop of `align_linear`: every word gets `time_per_word`. -/
def linearTimings : List (List Chr × TokenPosition) → ℚ → ℚ → List WordTiming
  | [], _, _ => []
  | (word, p) :: rest, time_per_word, current_time =>
    { word := word, start := current_time,
      «end» := current_time + time_per_word,
      confidence := 1 / 2,
      char_start := p.start, char_end := p.«end» } ::
    linearTimings rest time_per_word (current_time + time_per_word)

/-- `align_linear` from aligner.rs: note that, unlike `align_weighted`,
the source performs no check on `subtitle_end - subtitle_start`. -/
def align_linear (req : AlignmentRequest) : Except String AlignmentResponse :=
  match tokenize_text req.text req.language with
  | .error e => .error e
  | .ok tokenized =>
    if tokenized.tokens.isEmpty then
      .error "No words found to align"
    else
      .ok { text := req.text, language := req.language,
            duration := req.subtitle_end - req.subtitle_start,
            timings := linearTimings (tokenized.tokens.zip tokenized.positions)
              ((req.subtitle_end - req.subtitle_start) / (tokenized.tokens.length : ℚ))
              req.subtitle_start,
            method := .linear }

/-- `align_smart` from aligner.rs. -/
def align_smart (req : AlignmentRequest) : Except String AlignmentResponse :=
  if req.audio_url.isSome then
    .error "Forced alignment not yet implemented"
  else
    align_weighted req

/-- Sum of the per-span durations of a timing list. -/
def sumDur (ws : List WordTiming) : ℚ := (ws.map (fun w => w.«end» - w.start)).sum

/-- The timings are contiguous starting from `t0`: the first span starts at
`t0` and each span starts where the previous one ended. -/
def timingsChain (t0 : ℚ) : List WordTiming → Prop
  | [] => True
  | w :: ws => w.start = t0 ∧ timingsChain w.«end» ws

/-- Tokens and positions correspond 1:1 and each position slices the byte
text back to exactly its token. -/
def slicesOk (bs : List Nat) : List (List Chr) → List TokenPosition → Prop
  | [], [] => True
  | t :: ts, p :: ps => byteSlice bs p.start p.«end» = strBytes t ∧ slicesOk bs ts ps
  | _, _ => False

/-- The positions are well formed and ordered: each lies in `[lo, bs.length]`
with positive width, and each starts no earlier than the previous ended. -/
def posChain (bs : List Nat) : List TokenPosition → Nat → Prop
  | [], _ => True
  | p :: ps, lo =>
      lo ≤ p.start ∧ p.start < p.«end» ∧ p.«end» ≤ bs.length ∧ posChain bs ps p.«end»

/-! ### Concrete sample data for witnesses and counterexamples -/

/-- The letter `a` (U+0061): letter, not joiner, not whitespace. -/
def chrA : Chr := { bytes := [97], isLM := true, isJoiner := false, isWs := false }

/-- The letter `b` (U+0062). -/
def chrB : Chr := { bytes := [98], isLM := true, isJoiner := false, isWs := false }

/-- The space character (U+0020): whitespace only. -/
def chrSpace : Chr := { bytes := [32], isLM := false, isJoiner := false, isWs := true }

/-- The exclamation mark `!` (U+0021): punctuation — no class applies. -/
def chrBang : Chr := { bytes := [33], isLM := false, isJoiner := false, isWs := false }

/-- The text `"a b"` as grapheme clusters. -/
def textAB : List (List Chr) := [[chrA], [chrSpace], [chrB]]

/-- Request for `"a b"`, language `"en"`, timing `[0, 2]`, no audio. -/
def reqEx : AlignmentRequest :=
  { text := textAB, language := "en", subtitle_start := 0, subtitle_end := 2,
    audio_url := none }

/-- First weighted timing the code produces for `reqEx`. -/
def tEx0 : WordTiming :=
  { word := [chrA], start := 0, «end» := 1, confidence := 3 / 4,
    char_start := 0, char_end := 1 }

/-- Second weighted timing the code produces for `reqEx`. -/
def tEx1 : WordTiming :=
  { word := [chrB], start := 1, «end» := 2, confidence := 3 / 4,
    char_start := 2, char_end := 3 }

/-- The weighted response the code produces for `reqEx`. -/
def respEx : AlignmentResponse :=
  { text := textAB, language := "en", duration := 2,
    timings := [tEx0, tEx1],
    method := .weighted }

/-- The linear response the code produces for `reqEx`. -/
def respExLin : AlignmentResponse :=
  { text := textAB, language := "en", duration := 2,
    timings :=
      [ { word := [chrA], start := 0, «end» := 1, confidence := 1 / 2,
          char_start := 0, char_end := 1 },
        { word := [chrB], start := 1, «end» := 2, confidence := 1 / 2,
          char_start := 2, char_end := 3 } ],
    method := .linear }

/-- A request with one token but `subtitle_end < subtitle_start`. -/
def reqBad : AlignmentRequest :=
  { text := [[chrA]], language := "en", subtitle_start := 1, subtitle_end := 0,
    audio_url := none }

/-- A request whose text yields no tokens and whose timing is also invalid. -/
def reqNoTok : AlignmentRequest :=
  { text := [[chrBang]], language := "en", subtitle_start := 1, subtitle_end := 0,
    audio_url := none }

/-- A valid request carrying an empty-string audio reference. -/
def reqAudioEmpty : AlignmentRequest :=
  { text := textAB, language := "en", subtitle_start := 0, subtitle_end := 2,
    audio_url := some "" }

/-- A valid request carrying a non-empty audio reference. -/
def reqAudio : AlignmentRequest :=
  { text := textAB, language := "en", subtitle_start := 0, subtitle_end := 2,
    audio_url := some "http://example.com/a.wav" }

/-- The tokenizer response the code produces for `textAB` in English. -/
def rEx : TokenizeResponse :=
  { text := textAB, language := "en", tokens := [[chrA], [chrB]],
    positions := [⟨0, 1⟩, ⟨2, 3⟩] }

/-- Position of the first token of `textAB`. -/
def pEx0 : TokenPosition := ⟨0, 1⟩

/-- Position of the second token of `textAB`. -/
def pEx1 : TokenPosition := ⟨2, 3⟩

/-- The text `"ab b"` as grapheme clusters: tokens of unequal length. -/
def textABB : List (List Chr) := [[chrA], [chrB], [chrSpace], [chrB]]

/-- Request for `"ab b"`, language `"en"`, timing `[0, 3]`, no audio. -/
def reqMono : AlignmentRequest :=
  { text := textABB, language := "en", subtitle_start := 0, subtitle_end := 3,
    audio_url := none }

/-- Weighted timing of the two-letter token of `reqMono`. -/
def tMono0 : WordTiming :=
  { word := [chrA, chrB], start := 0, «end» := 2, confidence := 3 / 4,
    char_start := 0, char_end := 2 }

/-- Weighted timing of the one-letter token of `reqMono`. -/
def tMono1 : WordTiming :=
  { word := [chrB], start := 2, «end» := 3, confidence := 3 / 4,
    char_start := 3, char_end := 4 }

/-- The weighted response the code produces for `reqMono`. -/
def respMono : AlignmentResponse :=
  { text := textABB, language := "en", duration := 3,
    timings := [tMono0, tMono1], method := .weighted }

/-- The linear response the code produces for `reqBad` — an `Ok` response
with a negative-duration span, not an error. -/
def respBad : AlignmentResponse :=
  { text := [[chrA]], language := "en", duration := -1,
    timings := [{ word := [chrA], start := 1, «end» := 0, confidence := 1 / 2,
                  char_start := 0, char_end := 1 }],
    method := .linear }

/-! ### Basic byte-string lemmas -/

theorem strBytes_nil : strBytes [] = [] := rfl

theorem strBytes_cons (c : Chr) (cs : List Chr) :
    strBytes (c :: cs) = c.bytes ++ strBytes cs := by
  simp [strBytes]

theorem strBytes_append (a b : List Chr) :
    strBytes (a ++ b) = strBytes a ++ strBytes b := by
  simp [strBytes]

theorem byteSlice_append (pre w rest : List Nat) :
    byteSlice (pre ++ (w ++ rest)) pre.length (pre.length + w.length) = w := by
  simp [byteSlice, List.take_append, List.take_left, List.drop_left]

/-! ### Structure of the standard-path scanner -/

theorem lmRun_append_lmRem : ∀ l : List Chr, lmRun l ++ lmRem l = l
  | [] => rfl
  | c :: l => by
    by_cases h : c.isLM
    · simpa [lmRun, lmRem, List.takeWhile_cons, h] using lmRun_append_lmRem l
    · simp [lmRun, lmRem, List.takeWhile_cons, h]

theorem drop_append_of_eq {α : Type} {a b l : List α} (h : a ++ b = l) (i : Nat) :
    l.drop (a.length + i) = b.drop i := by
  subst h
  rw [List.drop_append]

theorem wordTail_append_drop : ∀ l : List Chr, wordTail l ++ l.drop (wordTail l).length = l := by
  intro l
  induction l using wordTail.induct with
  | case1 => simp [wordTail]
  | case2 => simp [wordTail]
  | case3 j c rest h ih =>
    rw [wordTail, if_pos h]
    have hrest : lmRun rest ++ lmRem rest = rest := lmRun_append_lmRem rest
    have hlen : (j :: c :: (lmRun rest ++ wordTail (lmRem rest))).length
        = ((lmRun rest).length + (wordTail (lmRem rest)).length) + 2 := by
      simp only [List.length_cons, List.length_append]
    rw [hlen]
    have hdrop : (j :: c :: rest).drop
        (((lmRun rest).length + (wordTail (lmRem rest)).length) + 2)
        = rest.drop ((lmRun rest).length + (wordTail (lmRem rest)).length) := rfl
    rw [hdrop, drop_append_of_eq hrest, List.cons_append, List.cons_append,
      List.append_assoc, ih, hrest]
  | case4 j c rest h =>
    rw [wordTail, if_neg h]
    simp

theorem scanStd_word_decomp (c : Chr) (rest : List Chr) :
    (c :: (lmRun rest ++ wordTail (lmRem rest))) ++
      (lmRem rest).drop (wordTail (lmRem rest)).length = c :: rest := by
  rw [List.cons_append, List.append_assoc, wordTail_append_drop, lmRun_append_lmRem]

/-! ### Round-trip invariant of the two tokenizer paths -/

theorem tokenize_cjk_go_slicesOk :
    ∀ (gs : List (List Chr)) (pre bs : List Nat), bs = pre ++ strBytes gs.flatten →
      slicesOk bs (tokenize_cjk_go gs pre.length).1 (tokenize_cjk_go gs pre.length).2
  | [], pre, bs, h => by simp [tokenize_cjk_go, slicesOk]
  | g :: rest, pre, bs, h => by
    rw [List.flatten_cons, strBytes_append] at h
    have hl : (pre ++ strBytes g).length = pre.length + strLen g := by
      simp [strLen, List.length_append]
    have htail := tokenize_cjk_go_slicesOk rest (pre ++ strBytes g) bs
      (by rw [h, List.append_assoc])
    rw [hl] at htail
    by_cases hws : g.all Chr.isWs
    · simpa [tokenize_cjk_go, hws] using htail
    · have hhead : byteSlice bs pre.length (pre.length + strLen g) = strBytes g := by
        rw [h]
        simpa [strLen] using byteSlice_append pre (strBytes g) (strBytes rest.flatten)
      simp only [tokenize_cjk_go, if_neg hws, slicesOk]
      exact ⟨hhead, htail⟩

theorem scanStd_slicesOk :
    ∀ (cs : List Chr) (pos : Nat) (pre bs : List Nat),
      pos = pre.length → bs = pre ++ strBytes cs →
      slicesOk bs (scanStd cs pos).1 (scanStd cs pos).2 := by
  intro cs pos
  induction cs, pos using scanStd.induct with
  | case1 pos =>
    intro pre bs h1 h2
    simp [scanStd, slicesOk]
  | case2 c rest pos hlm word rem2 ih =>
    intro pre bs h1 h2
    have hdecomp := scanStd_word_decomp c rest
    have hbytes : strBytes (c :: rest)
        = strBytes (c :: (lmRun rest ++ wordTail (lmRem rest)))
          ++ strBytes ((lmRem rest).drop (wordTail (lmRem rest)).length) := by
      rw [← strBytes_append, hdecomp]
    have hb2 : bs = (pre ++ strBytes (c :: (lmRun rest ++ wordTail (lmRem rest))))
        ++ strBytes ((lmRem rest).drop (wordTail (lmRem rest)).length) := by
      rw [h2, hbytes, List.append_assoc]
    have hpos : pos + strLen (c :: (lmRun rest ++ wordTail (lmRem rest)))
        = (pre ++ strBytes (c :: (lmRun rest ++ wordTail (lmRem rest)))).length := by
      rw [h1]
      simp [strLen, List.length_append]
    have htail := ih (pre ++ strBytes (c :: (lmRun rest ++ wordTail (lmRem rest)))) bs hpos hb2
    have hhead : byteSlice bs pos (pos + strLen (c :: (lmRun rest ++ wordTail (lmRem rest))))
        = strBytes (c :: (lmRun rest ++ wordTail (lmRem rest))) := by
      rw [h1, hb2, List.append_assoc]
      simpa [strLen] using
        byteSlice_append pre (strBytes (c :: (lmRun rest ++ wordTail (lmRem rest))))
          (strBytes ((lmRem rest).drop (wordTail (lmRem rest)).length))
    rw [scanStd, if_pos hlm]
    simp only [slicesOk]
    exact ⟨hhead, htail⟩
  | case3 c rest pos hlm ih =>
    intro pre bs h1 h2
    have hpos : pos + chrLen c = (pre ++ c.bytes).length := by
      rw [h1]
      simp [chrLen, List.length_append]
    have := ih (pre ++ c.bytes) bs hpos
      (by rw [h2, strBytes_cons, List.append_assoc])
    rw [scanStd, if_neg hlm]
    exact this

/-- Both tokenizer paths satisfy the round-trip invariant against the
byte sequence of the input text. -/
theorem tokenizePair_slicesOk (text : List (List Chr)) (language : String) :
    slicesOk (strBytes text.flatten)
      (tokenizePair text language).1 (tokenizePair text language).2 := by
  unfold tokenizePair
  by_cases hc : is_cjk_language (lowerStr language)
  · rw [if_pos hc]
    have := tokenize_cjk_go_slicesOk text ([] : List Nat) (strBytes text.flatten) (by simp)
    simpa [tokenize_cjk] using this
  · rw [if_neg hc]
    have := scanStd_slicesOk text.flatten 0 [] (strBytes text.flatten) rfl (by simp)
    simpa [tokenize_standard] using this

theorem slicesOk_length {bs : List Nat} :
    ∀ {ts : List (List Chr)} {ps : List TokenPosition},
      slicesOk bs ts ps → ts.length = ps.length
  | [], [], _ => rfl
  | [], _ :: _, h => absurd h (by simp [slicesOk])
  | _ :: _, [], h => absurd h (by simp [slicesOk])
  | _ :: ts, _ :: ps, h => by
    have : ts.length = ps.length := slicesOk_length h.2
    simp [List.length_cons, this]

theorem slicesOk_getElem {bs : List Nat} :
    ∀ {ts : List (List Chr)} {ps : List TokenPosition}, slicesOk bs ts ps →
      ∀ (i : Nat) (t : List Chr) (p : TokenPosition), ts[i]? = some t → ps[i]? = some p →
        byteSlice bs p.start p.«end» = strBytes t
  | [], [], _, i, t, p, ht, hp => by simp at ht
  | [], _ :: _, h, _, _, _, _, _ => absurd h (by simp [slicesOk])
  | _ :: _, [], h, _, _, _, _, _ => absurd h (by simp [slicesOk])
  | t0 :: ts, p0 :: ps, h, 0, t, p, ht, hp => by
    simp only [List.getElem?_cons_zero, Option.some.injEq] at ht hp
    rw [← ht, ← hp]
    exact h.1
  | t0 :: ts, p0 :: ps, h, i + 1, t, p, ht, hp => by
    simp only [List.getElem?_cons_succ] at ht hp
    exact slicesOk_getElem h.2 i t p ht hp

/-! ### Well-formedness and ordering of positions -/

theorem posChain_mono {bs : List Nat} {ps : List TokenPosition} {lo hi : Nat}
    (h : posChain bs ps hi) (hle : lo ≤ hi) : posChain bs ps lo := by
  cases ps with
  | nil => trivial
  | cons p ps => exact ⟨le_trans hle h.1, h.2.1, h.2.2.1, h.2.2.2⟩

theorem tokenize_cjk_go_posChain :
    ∀ (gs : List (List Chr)) (pre bs : List Nat), bs = pre ++ strBytes gs.flatten →
      (∀ g ∈ gs, strLen g ≠ 0) →
      posChain bs (tokenize_cjk_go gs pre.length).2 pre.length
  | [], pre, bs, h, hg => by simp [tokenize_cjk_go, posChain]
  | g :: rest, pre, bs, h, hg => by
    rw [List.flatten_cons, strBytes_append] at h
    have hl : (pre ++ strBytes g).length = pre.length + strLen g := by
      simp [strLen, List.length_append]
    have htail := tokenize_cjk_go_posChain rest (pre ++ strBytes g) bs
      (by rw [h, List.append_assoc]) (fun x hx => hg x (List.mem_cons_of_mem g hx))
    rw [hl] at htail
    by_cases hws : g.all Chr.isWs
    · simp only [tokenize_cjk_go, if_pos hws]
      exact posChain_mono htail (Nat.le_add_right _ _)
    · have hgn : strLen g ≠ 0 := hg g (List.mem_cons_self g rest)
      have hlen : pre.length + strLen g ≤ bs.length := by
        rw [h]
        simp only [List.length_append, strLen]
        omega
      simp only [tokenize_cjk_go, if_neg hws, posChain]
      exact ⟨le_refl _, by omega, hlen, htail⟩

theorem scanStd_posChain :
    ∀ (cs : List Chr) (pos : Nat) (pre bs : List Nat),
      pos = pre.length → bs = pre ++ strBytes cs → (∀ c ∈ cs, chrLen c ≠ 0) →
      posChain bs (scanStd cs pos).2 pos := by
  intro cs pos
  induction cs, pos using scanStd.induct with
  | case1 pos =>
    intro pre bs h1 h2 hc
    simp [scanStd, posChain]
  | case2 c rest pos hlm word rem2 ih =>
    intro pre bs h1 h2 hc
    have hdecomp := scanStd_word_decomp c rest
    have hbytes : strBytes (c :: rest)
        = strBytes (c :: (lmRun rest ++ wordTail (lmRem rest)))
          ++ strBytes ((lmRem rest).drop (wordTail (lmRem rest)).length) := by
      rw [← strBytes_append, hdecomp]
    have hb2 : bs = (pre ++ strBytes (c :: (lmRun rest ++ wordTail (lmRem rest))))
        ++ strBytes ((lmRem rest).drop (wordTail (lmRem rest)).length) := by
      rw [h2, hbytes, List.append_assoc]
    have hpos : pos + strLen (c :: (lmRun rest ++ wordTail (lmRem rest)))
        = (pre ++ strBytes (c :: (lmRun rest ++ wordTail (lmRem rest)))).length := by
      rw [h1]
      simp [strLen, List.length_append]
    have hcrem : ∀ x ∈ (lmRem rest).drop (wordTail (lmRem rest)).length, chrLen x ≠ 0 := by
      intro x hx
      have h1x : x ∈ lmRem rest := List.drop_subset _ _ hx
      rw [lmRem] at h1x
      exact hc x (List.mem_cons_of_mem c (List.drop_subset _ _ h1x))
    have htail := ih _ bs hpos hb2 hcrem
    have hwordlen : strLen (c :: (lmRun rest ++ wordTail (lmRem rest))) ≠ 0 := by
      have hcb := hc c (List.mem_cons_self c rest)
      simp only [strLen, strBytes_cons, List.length_append, chrLen] at hcb ⊢
      omega
    have hmax : pos + strLen (c :: (lmRun rest ++ wordTail (lmRem rest))) ≤ bs.length := by
      rw [h1, hb2]
      simp only [List.length_append, strLen]
      omega
    rw [scanStd, if_pos hlm]
    simp only [posChain]
    exact ⟨le_refl pos, by omega, hmax, htail⟩
  | case3 c rest pos hlm ih =>
    intro pre bs h1 h2 hc
    have hpos : pos + chrLen c = (pre ++ c.bytes).length := by
      rw [h1]
      simp [chrLen, List.length_append]
    have := ih (pre ++ c.bytes) bs hpos
      (by rw [h2, strBytes_cons, List.append_assoc])
      (fun x hx => hc x (List.mem_cons_of_mem c hx))
    rw [scanStd, if_neg hlm]
    exact posChain_mono this (Nat.le_add_right _ _)

/-- Both tokenizer paths produce well-formed, ordered positions, provided
the grapheme clusters and the UTF-8 encodings of the scalars are non-empty
(which they are for any real text). -/
theorem tokenizePair_posChain (text : List (List Chr)) (language : String)
    (hg : ∀ g ∈ text, g ≠ ([] : List Chr))
    (hb : ∀ c ∈ text.flatten, c.bytes ≠ ([] : List Nat)) :
    posChain (strBytes text.flatten) (tokenizePair text language).2 0 := by
  unfold tokenizePair
  by_cases hcjk : is_cjk_language (lowerStr language)
  · rw [if_pos hcjk]
    have hgn : ∀ g ∈ text, strLen g ≠ 0 := by
      intro g hgm
      cases g with
      | nil => exact absurd rfl (hg [] hgm)
      | cons c cs =>
        have hcb : c.bytes ≠ [] :=
          hb c (List.mem_flatten.mpr ⟨c :: cs, hgm, List.mem_cons_self c cs⟩)
        have hpos := List.length_pos.mpr hcb
        simp only [strLen, strBytes_cons, List.length_append]
        omega
    have := tokenize_cjk_go_posChain text [] (strBytes text.flatten) (by simp) hgn
    simpa [tokenize_cjk] using this
  · rw [if_neg hcjk]
    have hcn : ∀ c ∈ text.flatten, chrLen c ≠ 0 := by
      intro c hcm
      have hpos := List.length_pos.mpr (hb c hcm)
      simp only [chrLen]
      omega
    have := scanStd_posChain text.flatten 0 [] (strBytes text.flatten) rfl (by simp) hcn
    simpa [tokenize_standard] using this

theorem posChain_getElem {bs : List Nat} :
    ∀ {ps : List TokenPosition} {lo : Nat}, posChain bs ps lo →
      ∀ (i : Nat) (p : TokenPosition), ps[i]? = some p →
        lo ≤ p.start ∧ p.start < p.«end» ∧ p.«end» ≤ bs.length
  | [], _, _, i, p, hp => by simp at hp
  | p0 :: ps, lo, h, 0, p, hp => by
    simp only [List.getElem?_cons_zero, Option.some.injEq] at hp
    rw [← hp]
    exact ⟨h.1, h.2.1, h.2.2.1⟩
  | p0 :: ps, lo, h, i + 1, p, hp => by
    simp only [List.getElem?_cons_succ] at hp
    have hrec := posChain_getElem h.2.2.2 i p hp
    exact ⟨le_trans (le_trans h.1 (le_of_lt h.2.1)) hrec.1, hrec.2⟩

theorem posChain_adj {bs : List Nat} :
    ∀ {ps : List TokenPosition} {lo : Nat}, posChain bs ps lo →
      ∀ (i : Nat) (p q : TokenPosition), ps[i]? = some p → ps[i + 1]? = some q →
        p.«end» ≤ q.start
  | [], _, _, i, p, q, hp, hq => by simp at hp
  | p0 :: ps, lo, h, 0, p, q, hp, hq => by
    simp only [List.getElem?_cons_zero, List.getElem?_cons_succ, Option.some.injEq] at hp hq
    rw [← hp]
    exact (posChain_getElem h.2.2.2 0 q hq).1
  | p0 :: ps, lo, h, i + 1, p, q, hp, hq => by
    simp only [List.getElem?_cons_succ] at hp hq
    exact posChain_adj h.2.2.2 i p q hp hq

/-! ### Structure of the timing loops -/

theorem weightedTimings_chain :
    ∀ (l : List (List Chr × TokenPosition)) (td tc ct : ℚ),
      timingsChain ct (weightedTimings l td tc ct)
  | [], _, _, _ => trivial
  | (w, p) :: rest, td, tc, ct => ⟨rfl, weightedTimings_chain rest td tc _⟩

theorem linearTimings_chain :
    ∀ (l : List (List Chr × TokenPosition)) (tpw ct : ℚ),
      timingsChain ct (linearTimings l tpw ct)
  | [], _, _ => trivial
  | (w, p) :: rest, tpw, ct => ⟨rfl, linearTimings_chain rest tpw _⟩

theorem timingsChain_head {t0 : ℚ} {ws : List WordTiming} (h : timingsChain t0 ws) :
    ∀ w, ws[0]? = some w → w.start = t0 := by
  cases ws with
  | nil => intro w hw; simp at hw
  | cons w0 ws =>
    intro w hw
    simp only [List.getElem?_cons_zero, Option.some.injEq] at hw
    rw [← hw]
    exact h.1

theorem timingsChain_adj :
    ∀ {ws : List WordTiming} {t0 : ℚ}, timingsChain t0 ws →
      ∀ (i : Nat) (a b : WordTiming), ws[i]? = some a → ws[i + 1]? = some b →
        a.«end» = b.start
  | [], _, _, i, a, b, ha, hb => by simp at ha
  | w0 :: ws, t0, h, 0, a, b, ha, hb => by
    simp only [List.getElem?_cons_zero, List.getElem?_cons_succ, Option.some.injEq] at ha hb
    rw [← ha]
    exact (timingsChain_head h.2 b hb).symm
  | w0 :: ws, t0, h, i + 1, a, b, ha, hb => by
    simp only [List.getElem?_cons_succ] at ha hb
    exact timingsChain_adj h.2 i a b ha hb

theorem sumDur_cons (w : WordTiming) (ws : List WordTiming) :
    sumDur (w :: ws) = (w.«end» - w.start) + sumDur ws := by
  simp [sumDur]

theorem sumDur_weightedTimings :
    ∀ (l : List (List Chr × TokenPosition)) (td tc ct : ℚ),
      sumDur (weightedTimings l td tc ct)
        = td * ((l.map (fun x => ((x.1.length : Nat) : ℚ))).sum / tc)
  | [], td, tc, ct => by simp [weightedTimings, sumDur]
  | (w, p) :: rest, td, tc, ct => by
    rw [weightedTimings, sumDur_cons, sumDur_weightedTimings rest td tc _]
    simp only [List.map_cons, List.sum_cons]
    ring

theorem sumDur_linearTimings :
    ∀ (l : List (List Chr × TokenPosition)) (tpw ct : ℚ),
      sumDur (linearTimings l tpw ct) = (l.length : ℚ) * tpw
  | [], _, _ => by simp [linearTimings, sumDur]
  | (w, p) :: rest, tpw, ct => by
    rw [linearTimings, sumDur_cons, sumDur_linearTimings rest tpw _]
    simp only [List.length_cons]
    push_cast
    ring

theorem weightedTimings_getElem :
    ∀ (l : List (List Chr × TokenPosition)) (td tc ct : ℚ) (i : Nat) (w : WordTiming),
      (weightedTimings l td tc ct)[i]? = some w →
      ∃ x, l[i]? = some x ∧ w.word = x.1 ∧
        w.«end» - w.start = td * (((x.1.length : Nat) : ℚ) / tc)
  | [], _, _, _, i, w, h => by simp [weightedTimings] at h
  | (t, p) :: rest, td, tc, ct, 0, w, h => by
    rw [weightedTimings] at h
    simp only [List.getElem?_cons_zero, Option.some.injEq] at h
    refine ⟨(t, p), by simp, ?_, ?_⟩
    · rw [← h]
    · rw [← h]
      simp
  | (t, p) :: rest, td, tc, ct, i + 1, w, h => by
    rw [weightedTimings] at h
    simp only [List.getElem?_cons_succ] at h
    obtain ⟨x, hx, h1, h2⟩ := weightedTimings_getElem rest td tc _ i w h
    exact ⟨x, by simpa using hx, h1, h2⟩

/-! ### Destructuring successful aligner responses -/

theorem align_weighted_ok {req : AlignmentRequest} {resp : AlignmentResponse}
    (h : align_weighted req = .ok resp) :
    (tokenizePair req.text req.language).1 ≠ [] ∧
    0 < req.subtitle_end - req.subtitle_start ∧
    ((tokenizePair req.text req.language).1.map List.length).sum ≠ 0 ∧
    resp = { text := req.text, language := req.language,
             duration := req.subtitle_end - req.subtitle_start,
             timings := weightedTimings
               ((tokenizePair req.text req.language).1.zip
                 (tokenizePair req.text req.language).2)
               (req.subtitle_end - req.subtitle_start)
               ((((tokenizePair req.text req.language).1.map List.length).sum : Nat) : ℚ)
               req.subtitle_start,
             method := .weighted } := by
  rw [align_weighted] at h
  simp only [tokenize_text] at h
  split_ifs at h with h1 h2 h3
  cases h
  simp only [List.isEmpty_iff] at h1
  exact ⟨h1, by push_neg at h2; linarith, h3, rfl⟩

theorem align_linear_ok {req : AlignmentRequest} {resp : AlignmentResponse}
    (h : align_linear req = .ok resp) :
    (tokenizePair req.text req.language).1 ≠ [] ∧
    resp = { text := req.text, language := req.language,
             duration := req.subtitle_end - req.subtitle_start,
             timings := linearTimings
               ((tokenizePair req.text req.language).1.zip
                 (tokenizePair req.text req.language).2)
               ((req.subtitle_end - req.subtitle_start)
                 / (((tokenizePair req.text req.language).1.length : Nat) : ℚ))
               req.subtitle_start,
             method := .linear } := by
  rw [align_linear] at h
  simp only [tokenize_text] at h
  split_ifs at h with h1
  cases h
  simp only [List.isEmpty_iff] at h1
  exact ⟨h1, rfl⟩

theorem tokenizePair_length (text : List (List Chr)) (language : String) :
    (tokenizePair text language).1.length = (tokenizePair text language).2.length :=
  slicesOk_length (tokenizePair_slicesOk text language)

theorem zip_fst_length_sum (ts : List (List Chr)) (ps : List TokenPosition)
    (h : ts.length ≤ ps.length) :
    ((ts.zip ps).map (fun x => ((x.1.length : Nat) : ℚ))).sum
      = (((ts.map List.length).sum : Nat) : ℚ) := by
  rw [Nat.cast_list_sum, List.map_map]
  have hmm : (ts.zip ps).map (fun x => ((x.1.length : Nat) : ℚ))
      = ((ts.zip ps).map Prod.fst).map (fun t => ((t.length : Nat) : ℚ)) := by
    rw [List.map_map]
    rfl
  rw [hmm, List.map_fst_zip ts ps h]
  rfl

/-! ### Concrete evaluations used by witnesses and counterexamples -/

theorem is_cjk_en : is_cjk_language (lowerStr "en") = false := by decide

theorem tokenizePair_textAB :
    tokenizePair textAB "en" = ([[chrA], [chrB]], [⟨0, 1⟩, ⟨2, 3⟩]) := by
  simp [tokenizePair, is_cjk_en, tokenize_standard, textAB, scanStd, lmRun, lmRem, wordTail,
    chrA, chrB, chrSpace, chrLen, strLen, strBytes]

theorem tokenizePair_textABB :
    tokenizePair textABB "en" = ([[chrA, chrB], [chrB]], [⟨0, 2⟩, ⟨3, 4⟩]) := by
  simp [tokenizePair, is_cjk_en, tokenize_standard, textABB, scanStd, lmRun, lmRem, wordTail,
    chrA, chrB, chrSpace, chrLen, strLen, strBytes]

theorem tokenizePair_chrA_en :
    tokenizePair [[chrA]] "en" = ([[chrA]], [⟨0, 1⟩]) := by
  simp [tokenizePair, is_cjk_en, tokenize_standard, scanStd, lmRun, lmRem, wordTail,
    chrA, chrLen, strLen, strBytes]

theorem tokenizePair_bang_en :
    tokenizePair [[chrBang]] "en" = ([], []) := by
  simp [tokenizePair, is_cjk_en, tokenize_standard, scanStd, chrBang, chrLen]

theorem align_weighted_reqEx_eval : align_weighted reqEx = .ok respEx := by
  simp only [align_weighted, tokenize_text, reqEx, tokenizePair_textAB]
  norm_num [weightedTimings, respEx, tEx0, tEx1, textAB, chrA, chrB, chrSpace]

theorem align_linear_reqEx_eval : align_linear reqEx = .ok respExLin := by
  simp only [align_linear, tokenize_text, reqEx, tokenizePair_textAB]
  norm_num [linearTimings, respExLin, textAB, chrA, chrB, chrSpace]

theorem align_weighted_reqMono_eval : align_weighted reqMono = .ok respMono := by
  simp only [align_weighted, tokenize_text, reqMono, tokenizePair_textABB]
  norm_num [weightedTimings, respMono, tMono0, tMono1, textABB, chrA, chrB, chrSpace]

theorem align_linear_reqBad_eval : align_linear reqBad = .ok respBad := by
  simp only [align_linear, tokenize_text, reqBad, tokenizePair_chrA_en]
  norm_num [linearTimings, respBad, chrA]

/-! ### Additional tokenizer evaluation lemmas -/

theorem scanStd_no_lm :
    ∀ (cs : List Chr) (pos : Nat), (∀ c ∈ cs, c.isLM = false) → scanStd cs pos = ([], [])
  | [], pos, h => by rw [scanStd]
  | c :: rest, pos, h => by
    rw [scanStd, if_neg (by simp [h c (List.mem_cons_self c rest)])]
    exact scanStd_no_lm rest _ (fun x hx => h x (List.mem_cons_of_mem c hx))

theorem tokenize_cjk_go_all_ws :
    ∀ (gs : List (List Chr)) (pos : Nat), (∀ g ∈ gs, g.all Chr.isWs = true) →
      tokenize_cjk_go gs pos = ([], [])
  | [], pos, h => rfl
  | g :: rest, pos, h => by
    simp only [tokenize_cjk_go, if_pos (h g (List.mem_cons_self g rest))]
    exact tokenize_cjk_go_all_ws rest _ (fun x hx => h x (List.mem_cons_of_mem g hx))

/-! ### The claims -/

/-- C4: Offset round-trip — for every input text and language and every
token `t` produced by `tokenize_text` at position `[s, e)`, the byte slice
`text[s..e]` equals `t` exactly, on both the CJK grapheme path and the
standard regex path. -/
theorem offset_roundtrip (text : List (List Chr)) (language : String)
    (r : TokenizeResponse) (h : tokenize_text text language = .ok r)
    (i : Nat) (t : List Chr) (p : TokenPosition)
    (ht : r.tokens[i]? = some t) (hp : r.positions[i]? = some p) :
    byteSlice (strBytes text.flatten) p.start p.«end» = strBytes t := by
  rw [tokenize_text] at h
  injection h with h
  subst h
  exact slicesOk_getElem (tokenizePair_slicesOk text language) i t p ht hp

theorem offset_roundtrip_witness :
    byteSlice (strBytes textAB.flatten) pEx0.start pEx0.«end» = strBytes [chrA] ∧
    byteSlice (strBytes textAB.flatten) pEx1.start pEx1.«end» = strBytes [chrB] :=
  ⟨offset_roundtrip textAB "en" rEx (by simp [tokenize_text, tokenizePair_textAB, rEx])
      0 [chrA] pEx0 (by simp [rEx]) (by simp [rEx, pEx0]),
   offset_roundtrip textAB "en" rEx (by simp [tokenize_text, tokenizePair_textAB, rEx])
      1 [chrB] pEx1 (by simp [rEx]) (by simp [rEx, pEx1])⟩

/-- C10: Position well-formedness — every `tokenize_text` result has as
many positions as tokens, every position satisfies `start < end` and
`end ≤` the byte length of the text, and adjacent positions are ordered
and non-overlapping (`positions[i].end ≤ positions[i+1].start`); the
hypotheses state that the grapheme clusters and the UTF-8 encodings of
the scalars are non-empty, true of any real text. -/
theorem position_wellformedness (text : List (List Chr)) (language : String)
    (hg : ∀ g ∈ text, g ≠ ([] : List Chr))
    (hb : ∀ c ∈ text.flatten, c.bytes ≠ ([] : List Nat))
    (r : TokenizeResponse) (h : tokenize_text text language = .ok r) :
    r.tokens.length = r.positions.length ∧
    (∀ (i : Nat) (p : TokenPosition), r.positions[i]? = some p →
      p.start < p.«end» ∧ p.«end» ≤ (strBytes text.flatten).length) ∧
    (∀ (i : Nat) (p q : TokenPosition), r.positions[i]? = some p →
      r.positions[i + 1]? = some q → p.«end» ≤ q.start) := by
  rw [tokenize_text] at h
  injection h with h
  subst h
  refine ⟨slicesOk_length (tokenizePair_slicesOk text language), ?_, ?_⟩
  · intro i p hp
    have hh := posChain_getElem (tokenizePair_posChain text language hg hb) i p hp
    exact ⟨hh.2.1, hh.2.2⟩
  · intro i p q hp hq
    exact posChain_adj (tokenizePair_posChain text language hg hb) i p q hp hq

theorem position_wellformedness_witness :
    rEx.tokens.length = rEx.positions.length ∧
    (pEx0.start < pEx0.«end» ∧ pEx0.«end» ≤ (strBytes textAB.flatten).length) ∧
    pEx0.«end» ≤ pEx1.start := by
  have hh := position_wellformedness textAB "en" (by decide) (by decide) rEx
    (by simp [tokenize_text, tokenizePair_textAB, rEx])
  exact ⟨hh.1, hh.2.1 0 pEx0 (by simp [rEx, pEx0]),
    hh.2.2 0 pEx0 pEx1 (by simp [rEx, pEx0]) (by simp [rEx, pEx1])⟩

/-- C7 (amended): `tokenize_text` never fails for any text and language;
for empty text it returns empty token and position sequences; on the
standard (non-CJK) path, text whose scalars are all non-letter/mark
(punctuation, digits, symbols, whitespace) likewise yields empty
sequences.  On the CJK path only whitespace-only text yields empty
sequences — non-whitespace punctuation becomes one token per grapheme
(see the counterexample). -/
theorem tokenize_totality_empty_policy (text : List (List Chr)) (language : String) :
    (∃ r, tokenize_text text language = .ok r) ∧
    (text = [] → tokenize_text text language
        = .ok { text := text, language := language, tokens := [], positions := [] }) ∧
    (is_cjk_language (lowerStr language) = false →
      (∀ c ∈ text.flatten, c.isLM = false) →
      tokenize_text text language
        = .ok { text := text, language := language, tokens := [], positions := [] }) ∧
    (is_cjk_language (lowerStr language) = true →
      (∀ g ∈ text, g.all Chr.isWs = true) →
      tokenize_text text language
        = .ok { text := text, language := language, tokens := [], positions := [] }) := by
  refine ⟨⟨_, rfl⟩, ?_, ?_, ?_⟩
  · intro h
    subst h
    rw [tokenize_text]
    by_cases hcjk : is_cjk_language (lowerStr language)
    · simp [tokenizePair, hcjk, tokenize_cjk, tokenize_cjk_go]
    · simp [tokenizePair, hcjk, tokenize_standard, scanStd]
  · intro hcjk hlm
    rw [tokenize_text]
    have hs := scanStd_no_lm text.flatten 0 hlm
    simp [tokenizePair, hcjk, tokenize_standard, hs]
  · intro hcjk hws
    rw [tokenize_text]
    have hs := tokenize_cjk_go_all_ws text 0 hws
    simp [tokenizePair, hcjk, tokenize_cjk, hs]

/-- C7 counterexample: on the CJK path, punctuation-only text does NOT
yield empty sequences: the text `"!"` (one grapheme, byte 33, neither
letter/mark nor whitespace) under language `"zh"` produces one token. -/
theorem tokenize_cjk_punct_cex :
    tokenize_text [[chrBang]] "zh"
      = .ok { text := [[chrBang]], language := "zh",
              tokens := [[chrBang]], positions := [⟨0, 1⟩] } ∧
    ([[chrBang]] : List (List Chr)) ≠ [] := by
  constructor
  · have hp : tokenizePair [[chrBang]] "zh" = ([[chrBang]], [⟨0, 1⟩]) := by decide
    simp [tokenize_text, hp]
  · decide

theorem tokenize_totality_empty_policy_witness :
    tokenize_text [[chrBang]] "en"
      = .ok { text := [[chrBang]], language := "en", tokens := [], positions := [] } :=
  (tokenize_totality_empty_policy [[chrBang]] "en").2.2.1 (by decide) (by decide)

/-- C1 (amended): `align_linear` does not perform the timing check the
claim describes — it checks only for the empty token list.  For every
request whose text yields at least one token and whose
`subtitle_end - subtitle_start ≤ 0`, `align_linear` still returns a
response (with non-positive span durations), while `align_weighted`
returns the `InvalidTiming` error on the same request. -/
theorem align_linear_missing_timing_check (req : AlignmentRequest)
    (ht : (tokenizePair req.text req.language).1 ≠ [])
    (hd : req.subtitle_end - req.subtitle_start ≤ 0) :
    align_linear req
      = .ok { text := req.text, language := req.language,
              duration := req.subtitle_end - req.subtitle_start,
              timings := linearTimings
                ((tokenizePair req.text req.language).1.zip
                  (tokenizePair req.text req.language).2)
                ((req.subtitle_end - req.subtitle_start)
                  / (((tokenizePair req.text req.language).1.length : Nat) : ℚ))
                req.subtitle_start,
              method := .linear } ∧
    align_weighted req = .error "Invalid subtitle timing: end must be after start" := by
  constructor
  · rw [align_linear]
    simp [tokenize_text, List.isEmpty_iff, ht]
  · rw [align_weighted]
    simp [tokenize_text, List.isEmpty_iff, ht, hd]

/-- C1 counterexample: `reqBad` has one token and
`subtitle_end - subtitle_start = -1 ≤ 0`, yet `align_linear` succeeds
with a response instead of returning an error. -/
theorem align_linear_invalid_timing_cex :
    reqBad.subtitle_end - reqBad.subtitle_start ≤ 0 ∧
    align_linear reqBad = .ok respBad := by
  constructor
  · norm_num [reqBad]
  · exact align_linear_reqBad_eval

theorem align_linear_missing_timing_check_witness :
    align_linear reqBad
      = .ok { text := reqBad.text, language := reqBad.language,
              duration := reqBad.subtitle_end - reqBad.subtitle_start,
              timings := linearTimings
                ((tokenizePair reqBad.text reqBad.language).1.zip
                  (tokenizePair reqBad.text reqBad.language).2)
                ((reqBad.subtitle_end - reqBad.subtitle_start)
                  / (((tokenizePair reqBad.text reqBad.language).1.length : Nat) : ℚ))
                reqBad.subtitle_start,
              method := .linear } ∧
    align_weighted reqBad = .error "Invalid subtitle timing: end must be after start" :=
  align_linear_missing_timing_check reqBad
    (by simp [reqBad, tokenizePair_chrA_en]) (by norm_num [reqBad])

/-- C8: Error precedence in `align_weighted` — the empty-token check runs
before the timing check, so a request with zero tokens and
`subtitle_end ≤ subtitle_start` gets the `EmptyInput` error
`"No words found to align"`, not the timing error. -/
theorem weighted_error_precedence (req : AlignmentRequest)
    (ht : (tokenizePair req.text req.language).1 = [])
    (hd : req.subtitle_end - req.subtitle_start ≤ 0) :
    align_weighted req = .error "No words found to align" := by
  rw [align_weighted]
  simp [tokenize_text, ht]

theorem weighted_error_precedence_witness :
    align_weighted reqNoTok = .error "No words found to align" :=
  weighted_error_precedence reqNoTok (by simp [reqNoTok, tokenizePair_bang_en])
    (by norm_num [reqNoTok])

/-- C9: `align_smart` returns the NotImplemented error whenever the audio
reference is present at all — including when it is the empty string — for
every text, language and timing. -/
theorem smart_gates_any_present_audio (req : AlignmentRequest) (s : String)
    (h : req.audio_url = some s) :
    align_smart req = .error "Forced alignment not yet implemented" := by
  rw [align_smart, if_pos (by simp [h])]

theorem smart_gates_any_present_audio_witness :
    align_smart reqAudioEmpty = .error "Forced alignment not yet implemented" :=
  smart_gates_any_present_audio reqAudioEmpty "" rfl

/-- C5: Smart selector gating — with an audio reference present,
`align_smart` returns the NotImplemented error regardless of the request;
otherwise it returns exactly `align_weighted` of the same request, so any
successful response carries the `weighted` method tag. -/
theorem smart_selector_gating (req : AlignmentRequest) :
    (req.audio_url.isSome = true →
      align_smart req = .error "Forced alignment not yet implemented") ∧
    (req.audio_url = none → align_smart req = align_weighted req) ∧
    (∀ resp, align_smart req = .ok resp → resp.method = AlignmentMethod.weighted) := by
  refine ⟨?_, ?_, ?_⟩
  · intro h
    rw [align_smart, if_pos h]
  · intro h
    rw [align_smart, if_neg (by simp [h])]
  · intro resp h
    by_cases ha : req.audio_url.isSome
    · rw [align_smart, if_pos ha] at h
      cases h
    · rw [align_smart, if_neg ha] at h
      obtain ⟨-, -, -, hresp⟩ := align_weighted_ok h
      rw [hresp]

theorem smart_selector_gating_witness :
    align_smart reqAudio = .error "Forced alignment not yet implemented" ∧
    align_smart reqEx = align_weighted reqEx ∧
    respEx.method = AlignmentMethod.weighted :=
  ⟨(smart_selector_gating reqAudio).1 rfl,
   (smart_selector_gating reqEx).2.1 rfl,
   (smart_selector_gating reqEx).2.2 respEx
     (((smart_selector_gating reqEx).2.1 rfl).trans align_weighted_reqEx_eval)⟩

/-- C3: Contiguity — in every successful response of `align_linear` or
`align_weighted`, the first timing starts exactly at `subtitle_start` and
each timing ends exactly where the next starts, because every span starts
at the running cursor that produced the previous span's end. -/
theorem alignment_contiguity (req : AlignmentRequest) (resp : AlignmentResponse)
    (h : align_linear req = .ok resp ∨ align_weighted req = .ok resp) :
    (∀ w, resp.timings[0]? = some w → w.start = req.subtitle_start) ∧
    (∀ (i : Nat) (a b : WordTiming), resp.timings[i]? = some a →
      resp.timings[i + 1]? = some b → a.«end» = b.start) := by
  rcases h with h | h
  · obtain ⟨-, hresp⟩ := align_linear_ok h
    subst hresp
    exact ⟨timingsChain_head (linearTimings_chain _ _ _),
           fun i a b => timingsChain_adj (linearTimings_chain _ _ _) i a b⟩
  · obtain ⟨-, -, -, hresp⟩ := align_weighted_ok h
    subst hresp
    exact ⟨timingsChain_head (weightedTimings_chain _ _ _ _),
           fun i a b => timingsChain_adj (weightedTimings_chain _ _ _ _) i a b⟩

theorem alignment_contiguity_witness :
    tEx0.start = reqEx.subtitle_start ∧ tEx0.«end» = tEx1.start :=
  ⟨(alignment_contiguity reqEx respEx (Or.inr align_weighted_reqEx_eval)).1 tEx0
      (by simp [respEx]),
   (alignment_contiguity reqEx respEx (Or.inr align_weighted_reqEx_eval)).2 0 tEx0 tEx1
      (by simp [respEx]) (by simp [respEx])⟩

/-- C2: Duration conservation — for every successful response of
`align_linear` or `align_weighted`, the sum of the per-timing durations
equals `subtitle_end - subtitle_start` within the 1e-6 tolerance (in the
exact rational model the sum is in fact exactly equal). -/
theorem duration_conservation (req : AlignmentRequest) (resp : AlignmentResponse) :
    (align_linear req = .ok resp →
      |sumDur resp.timings - (req.subtitle_end - req.subtitle_start)| ≤ 1 / 1000000) ∧
    (align_weighted req = .ok resp →
      |sumDur resp.timings - (req.subtitle_end - req.subtitle_start)| ≤ 1 / 1000000) := by
  constructor
  · intro h
    obtain ⟨hne, hresp⟩ := align_linear_ok h
    subst hresp
    rw [sumDur_linearTimings]
    have hzip : ((tokenizePair req.text req.language).1.zip
        (tokenizePair req.text req.language).2).length
        = (tokenizePair req.text req.language).1.length := by
      rw [List.length_zip, tokenizePair_length, min_self]
    rw [hzip]
    have hne2 : (((tokenizePair req.text req.language).1.length : Nat) : ℚ) ≠ 0 := by
      rw [Nat.cast_ne_zero]
      simpa [List.length_eq_zero] using hne
    rw [mul_comm, div_mul_cancel₀ _ hne2, sub_self, abs_zero]
    norm_num
  · intro h
    obtain ⟨hne, hpos, hchars, hresp⟩ := align_weighted_ok h
    subst hresp
    rw [sumDur_weightedTimings,
      zip_fst_length_sum _ _ (le_of_eq (tokenizePair_length req.text req.language))]
    have hne2 : ((((tokenizePair req.text req.language).1.map List.length).sum : Nat) : ℚ)
        ≠ 0 := by
      rwa [Nat.cast_ne_zero]
    rw [div_self hne2, mul_one, sub_self, abs_zero]
    norm_num

theorem duration_conservation_witness :
    |sumDur respExLin.timings - (reqEx.subtitle_end - reqEx.subtitle_start)| ≤ 1 / 1000000 ∧
    |sumDur respEx.timings - (reqEx.subtitle_end - reqEx.subtitle_start)| ≤ 1 / 1000000 :=
  ⟨(duration_conservation reqEx respExLin).1 align_linear_reqEx_eval,
   (duration_conservation reqEx respEx).2 align_weighted_reqEx_eval⟩

/-- C6: Weighted monotonicity — in every successful `align_weighted`
response, a timing whose word has strictly more Unicode scalars than
another receives at least as much duration. -/
theorem weighted_monotonicity (req : AlignmentRequest) (resp : AlignmentResponse)
    (h : align_weighted req = .ok resp) (i j : Nat) (a b : WordTiming)
    (ha : resp.timings[i]? = some a) (hb : resp.timings[j]? = some b)
    (hlen : b.word.length < a.word.length) :
    b.«end» - b.start ≤ a.«end» - a.start := by
  obtain ⟨hne, hpos, hchars, hresp⟩ := align_weighted_ok h
  subst hresp
  obtain ⟨x, hx, hxw, hxd⟩ := weightedTimings_getElem _ _ _ _ i a ha
  obtain ⟨y, hy, hyw, hyd⟩ := weightedTimings_getElem _ _ _ _ j b hb
  rw [hxd, hyd]
  rw [hxw, hyw] at hlen
  have htc : (0:ℚ)
      < ((((tokenizePair req.text req.language).1.map List.length).sum : Nat) : ℚ) := by
    exact_mod_cast Nat.pos_of_ne_zero hchars
  have hxy : ((y.1.length : Nat) : ℚ) ≤ ((x.1.length : Nat) : ℚ) := by
    exact_mod_cast Nat.le_of_lt hlen
  gcongr

theorem weighted_monotonicity_witness :
    tMono1.«end» - tMono1.start ≤ tMono0.«end» - tMono0.start :=
  weighted_monotonicity reqMono respMono align_weighted_reqMono_eval 0 1 tMono0 tMono1
    (by simp [respMono]) (by simp [respMono]) (by decide)

end DubDub
